import Mathlib

/-!
Verification of the amortization-schedule core of the `Accr` repository
(`emi.py`): the EMI calculator `calculate_emi` and the schedule generator
`generate_schedule`, embedded over `ℚ` (the idealization of the source's
real arithmetic), with Python's `round(x, 2)` modelled as round-half-to-even
at two decimals and `pandas.date_range(..., freq="MS")` modelled as
month-start alignment on a calendar-date type.
-/

namespace Accr

/-- A calendar date, as used for the schedule's start date and period labels. -/
structure Date where
  year : ℤ
  month : ℤ
  day : ℤ
deriving DecidableEq

/-- Absolute month index of a date: `12 * year + (month - 1)`. -/
def monthIndex (d : Date) : ℤ := 12 * d.year + (d.month - 1)

/-- `pandas.date_range(start, periods, freq="MS")` starts at the first
month-start on or after `start`: `start` itself when its day is 1, the next
month otherwise.  This gives that first month, as an absolute month index. -/
def alignMS (d : Date) : ℤ := if d.day = 1 then monthIndex d else monthIndex d + 1

/-- The month-start date with the given absolute month index (day is 1). -/
def dateOfMonthIndex (m : ℤ) : Date := ⟨m.fdiv 12, m.emod 12 + 1, 1⟩

/-- One row of the amortization schedule, mirroring the dict appended in
`generate_schedule`: `Month #`, `Date`, `Opening Balance`, `EMI`,
`Principal Component`, `Interest Component`, `Closing Balance`.  The five
monetary fields hold the `round(_, 2)` values stored by the source. -/
structure Row where
  month : ℕ
  date : Date
  openingBalance : ℚ
  emi : ℚ
  principalComponent : ℚ
  interestComponent : ℚ
  closingBalance : ℚ
deriving DecidableEq

/-- Round half to even, Python's `round` on a number with no digit argument
applied here to `100 * q`: nearest integer, ties to the even one. -/
def rne (q : ℚ) : ℤ :=
  if q - ⌊q⌋ < 1 / 2 then ⌊q⌋
  else if 1 / 2 < q - ⌊q⌋ then ⌊q⌋ + 1
  else if ⌊q⌋ % 2 = 0 then ⌊q⌋ else ⌊q⌋ + 1

/-- Python's `round(q, 2)`: round to two decimal places, ties to even. -/
def roundTo2 (q : ℚ) : ℚ := (rne (100 * q) : ℚ) / 100

/-- `calculate_emi` from `emi.py` (lines 80–93): zero result for a
non-positive term, linear amortization for zero monthly rate, and the
closed-form fixed-payment formula otherwise. -/
def calculate_emi (principal annual_rate : ℚ) (total_months : ℤ) : ℚ :=
  if total_months ≤ 0 then 0
  else
    let monthly_rate := annual_rate / 12 / 100
    if monthly_rate = 0 then principal / total_months
    else
      principal * monthly_rate * (1 + monthly_rate) ^ total_months.toNat /
        ((1 + monthly_rate) ^ total_months.toNat - 1)

/-- Interest component of one period (`emi.py` lines 115–121): positive
monthly rate charges `balance * monthly_rate`, otherwise zero. -/
def icOf (monthly_rate balance : ℚ) : ℚ :=
  if 0 < monthly_rate then balance * monthly_rate else 0

/-- Principal component of one period before the last-instalment adjustment
(`emi.py` lines 115–121): `emi - interest` for a positive monthly rate,
`principal / total_months` otherwise. -/
def pc0Of (monthly_rate emi principal : ℚ) (total_months : ℤ) (balance : ℚ) : ℚ :=
  if 0 < monthly_rate then emi - balance * monthly_rate
  else principal / (total_months : ℚ)

/-- Principal component after the last-instalment adjustment (`emi.py`
lines 124–125): clamped to the remaining balance when it would exceed it. -/
def pcOf (monthly_rate emi principal : ℚ) (total_months : ℤ) (balance : ℚ) : ℚ :=
  if balance < pc0Of monthly_rate emi principal total_months balance then balance
  else pc0Of monthly_rate emi principal total_months balance

/-- The period's effective payment (`emi.py` lines 124–128): recomputed as
principal + interest when the clamp fires, the nominal `emi` otherwise. -/
def emiActualOf (monthly_rate emi principal : ℚ) (total_months : ℤ) (balance : ℚ) : ℚ :=
  if balance < pc0Of monthly_rate emi principal total_months balance then
    pcOf monthly_rate emi principal total_months balance + icOf monthly_rate balance
  else emi

/-- Closing balance of one period (`emi.py` line 130). -/
def closingOf (monthly_rate emi principal : ℚ) (total_months : ℤ) (balance : ℚ) : ℚ :=
  balance - pcOf monthly_rate emi principal total_months balance

/-- The row appended for period index `i` (0-based) with running balance
`balance` (`emi.py` lines 132–142); `d0` is the aligned start month. -/
def mkRow (monthly_rate emi principal : ℚ) (total_months : ℤ) (d0 : ℤ) (i : ℕ)
    (balance : ℚ) : Row :=
  { month := i + 1
    date := dateOfMonthIndex (d0 + i)
    openingBalance := roundTo2 balance
    emi := roundTo2 (emiActualOf monthly_rate emi principal total_months balance)
    principalComponent := roundTo2 (pcOf monthly_rate emi principal total_months balance)
    interestComponent := roundTo2 (icOf monthly_rate balance)
    closingBalance := roundTo2 (closingOf monthly_rate emi principal total_months balance) }

/-- The loop of `generate_schedule` (`emi.py` lines 114–147): one row per
period, the balance becomes the closing balance, and iteration stops early
when the balance reaches `≤ 0`.  The fuel argument is the number of loop
iterations that remain (`total_months - i`). -/
def scheduleAux (monthly_rate emi principal : ℚ) (total_months : ℤ) (d0 : ℤ) :
    ℕ → ℕ → ℚ → List Row
  | 0, _, _ => []
  | fuel + 1, i, balance =>
    mkRow monthly_rate emi principal total_months d0 i balance ::
      (if closingOf monthly_rate emi principal total_months balance ≤ 0 then []
       else
        scheduleAux monthly_rate emi principal total_months d0 fuel (i + 1)
          (closingOf monthly_rate emi principal total_months balance))

/-- `generate_schedule` from `emi.py` (lines 96–150): empty for a
non-positive term or principal, otherwise the iterated schedule starting
from balance `principal` with dates aligned to month starts. -/
def generate_schedule (principal annual_rate : ℚ) (total_months : ℤ) (start : Date)
    (emi : ℚ) : List Row :=
  if total_months ≤ 0 ∨ principal ≤ 0 then []
  else
    scheduleAux (annual_rate / 12 / 100) emi principal total_months (alignMS start)
      total_months.toNat 0 principal

/-! ### Rounding lemmas -/

theorem rne_cases (q : ℚ) : rne q = ⌊q⌋ ∨ rne q = ⌊q⌋ + 1 := by
  unfold rne
  split_ifs <;> simp

theorem abs_rne_sub_le (q : ℚ) : |(rne q : ℚ) - q| ≤ 1 / 2 := by
  have h0 : (⌊q⌋ : ℚ) ≤ q := Int.floor_le q
  have h1 : q < ⌊q⌋ + 1 := Int.lt_floor_add_one q
  unfold rne
  split_ifs with hlt hgt hev
  · rw [abs_of_nonpos (by linarith)]; linarith
  · rw [Int.cast_add, Int.cast_one, abs_of_nonneg (by linarith)]; linarith
  · rw [abs_of_nonpos (by linarith)]; linarith
  · rw [Int.cast_add, Int.cast_one, abs_of_nonneg (by linarith)]; linarith

theorem rne_nonneg {q : ℚ} (h : 0 ≤ q) : 0 ≤ rne q := by
  have hf : 0 ≤ ⌊q⌋ := Int.floor_nonneg.mpr h
  rcases rne_cases q with h' | h' <;> omega

theorem rne_nonpos {q : ℚ} (h : q ≤ 0) : rne q ≤ 0 := by
  have hb := abs_rne_sub_le q
  rw [abs_le] at hb
  have : (rne q : ℚ) ≤ 1 / 2 := by linarith [hb.2]
  by_contra hc
  push_neg at hc
  have : (1 : ℚ) ≤ (rne q : ℚ) := by exact_mod_cast hc
  linarith

theorem rne_intCast (k : ℤ) : rne (k : ℚ) = k := by
  unfold rne
  rw [Int.floor_intCast]
  simp

theorem roundTo2_zero : roundTo2 0 = 0 := by
  unfold roundTo2
  rw [mul_zero, show ((0 : ℚ) = ((0 : ℤ) : ℚ)) by norm_num, rne_intCast]
  norm_num

theorem abs_roundTo2_sub_le (q : ℚ) : |roundTo2 q - q| ≤ 1 / 200 := by
  have hb := abs_rne_sub_le (100 * q)
  unfold roundTo2
  rw [show (rne (100 * q) : ℚ) / 100 - q = ((rne (100 * q) : ℚ) - 100 * q) / 100 by ring,
    abs_div]
  rw [show |(100 : ℚ)| = 100 by norm_num]
  linarith

theorem roundTo2_nonneg {q : ℚ} (h : 0 ≤ q) : 0 ≤ roundTo2 q := by
  have : (0 : ℚ) ≤ (rne (100 * q) : ℚ) := by
    exact_mod_cast rne_nonneg (by linarith : (0 : ℚ) ≤ 100 * q)
  unfold roundTo2
  positivity

theorem roundTo2_nonpos {q : ℚ} (h : q ≤ 0) : roundTo2 q ≤ 0 := by
  have h1 : rne (100 * q) ≤ 0 := rne_nonpos (by linarith)
  have : (rne (100 * q) : ℚ) ≤ 0 := by exact_mod_cast h1
  unfold roundTo2
  linarith

/-- Rounding is additive up to one unit in the last place: the recorded
difference and the difference of recorded values disagree by at most one
cent. -/
theorem roundTo2_sub_bound (x y : ℚ) :
    |roundTo2 (x - y) - (roundTo2 x - roundTo2 y)| ≤ 1 / 100 := by
  set N : ℤ := rne (100 * (x - y)) - rne (100 * x) + rne (100 * y) with hN
  have hcast : (N : ℚ) =
      ((rne (100 * (x - y)) : ℚ) - 100 * (x - y)) -
        ((rne (100 * x) : ℚ) - 100 * x) + ((rne (100 * y) : ℚ) - 100 * y) := by
    rw [hN]
    push_cast
    ring
  have h32 : |(N : ℚ)| ≤ 3 / 2 := by
    rw [hcast]
    have h1 := abs_rne_sub_le (100 * (x - y))
    have h2 := abs_rne_sub_le (100 * x)
    have h3 := abs_rne_sub_le (100 * y)
    rw [abs_le] at h1 h2 h3 ⊢
    constructor <;> linarith [h1.1, h1.2, h2.1, h2.2, h3.1, h3.2]
  have hint : |N| ≤ 1 := by
    by_contra hc
    have h2le : (2 : ℤ) ≤ |N| := by omega
    have h2q : (2 : ℚ) ≤ |(N : ℚ)| := by
      rw [← Int.cast_abs]
      exact_mod_cast h2le
    linarith
  have hq : roundTo2 (x - y) - (roundTo2 x - roundTo2 y) = (N : ℚ) / 100 := by
    unfold roundTo2
    rw [hN]
    push_cast
    ring
  rw [hq, abs_div, show |(100 : ℚ)| = 100 by norm_num]
  have h1q : |(N : ℚ)| ≤ 1 := by
    rw [← Int.cast_abs]
    exact_mod_cast hint
  linarith

/-! ### Structural lemmas about the schedule loop, for an arbitrary payment -/

theorem scheduleAux_zero (r emi P : ℚ) (n : ℤ) (d0 : ℤ) (i : ℕ) (b : ℚ) :
    scheduleAux r emi P n d0 0 i b = [] := rfl

theorem scheduleAux_succ (r emi P : ℚ) (n : ℤ) (d0 : ℤ) (f i : ℕ) (b : ℚ) :
    scheduleAux r emi P n d0 (f + 1) i b =
      mkRow r emi P n d0 i b ::
        (if closingOf r emi P n b ≤ 0 then []
         else scheduleAux r emi P n d0 f (i + 1) (closingOf r emi P n b)) := rfl

theorem closingOf_nonneg (r emi P : ℚ) (n : ℤ) (b : ℚ) : 0 ≤ closingOf r emi P n b := by
  unfold closingOf pcOf
  split_ifs with h
  · simp
  · linarith [not_lt.mp h]

theorem emiActualOf_of_closing_pos {r emi P : ℚ} {n : ℤ} {b : ℚ}
    (h : 0 < closingOf r emi P n b) : emiActualOf r emi P n b = emi := by
  unfold closingOf pcOf at h
  unfold emiActualOf
  split_ifs with hc
  · rw [if_pos hc] at h
    simp at h
  · rfl

theorem scheduleAux_ne_nil (r emi P : ℚ) (n : ℤ) (d0 : ℤ) (f i : ℕ) (b : ℚ)
    (hf : 0 < f) : scheduleAux r emi P n d0 f i b ≠ [] := by
  cases f with
  | zero => omega
  | succ f => rw [scheduleAux_succ]; simp

theorem scheduleAux_length_le (r emi P : ℚ) (n : ℤ) (d0 : ℤ) :
    ∀ (f i : ℕ) (b : ℚ), (scheduleAux r emi P n d0 f i b).length ≤ f := by
  intro f
  induction f with
  | zero => intro i b; rw [scheduleAux_zero]; simp
  | succ f ih =>
    intro i b
    rw [scheduleAux_succ]
    simp only [List.length_cons]
    split_ifs with h
    · simp
    · exact Nat.succ_le_succ (ih (i + 1) _)

theorem scheduleAux_month_date (r emi P : ℚ) (n : ℤ) (d0 : ℤ) :
    ∀ (f i : ℕ) (b : ℚ) (j : ℕ) (rec : Row),
      (scheduleAux r emi P n d0 f i b)[j]? = some rec →
        rec.month = i + 1 + j ∧ rec.date = dateOfMonthIndex (d0 + (i + j : ℕ)) := by
  intro f
  induction f with
  | zero => intro i b j rec h; rw [scheduleAux_zero] at h; simp at h
  | succ f ih =>
    intro i b j rec h
    rw [scheduleAux_succ] at h
    cases j with
    | zero =>
      rw [List.getElem?_cons_zero] at h
      have hrec : mkRow r emi P n d0 i b = rec := by simpa using h
      subst hrec
      refine ⟨by simp [mkRow], ?_⟩
      simp [mkRow]
    | succ j =>
      rw [List.getElem?_cons_succ] at h
      split_ifs at h with hc
      · simp at h
      · have hid := ih (i + 1) _ j rec h
        refine ⟨by omega, ?_⟩
        rw [hid.2]
        congr 2
        push_cast
        ring

theorem scheduleAux_head_opening (r emi P : ℚ) (n : ℤ) (d0 : ℤ) (f i : ℕ) (b : ℚ)
    (rec : Row) (h : (scheduleAux r emi P n d0 f i b)[0]? = some rec) :
    rec.openingBalance = roundTo2 b := by
  cases f with
  | zero => rw [scheduleAux_zero] at h; simp at h
  | succ f =>
    rw [scheduleAux_succ, List.getElem?_cons_zero] at h
    have hrec : mkRow r emi P n d0 i b = rec := by simpa using h
    subst hrec
    rfl

theorem scheduleAux_chain (r emi P : ℚ) (n : ℤ) (d0 : ℤ) :
    ∀ (f i : ℕ) (b : ℚ) (j : ℕ) (rec1 rec2 : Row),
      (scheduleAux r emi P n d0 f i b)[j]? = some rec1 →
      (scheduleAux r emi P n d0 f i b)[j + 1]? = some rec2 →
        rec2.openingBalance = rec1.closingBalance := by
  intro f
  induction f with
  | zero => intro i b j rec1 rec2 h1 h2; rw [scheduleAux_zero] at h1; simp at h1
  | succ f ih =>
    intro i b j rec1 rec2 h1 h2
    rw [scheduleAux_succ] at h1 h2
    cases j with
    | zero =>
      rw [List.getElem?_cons_zero] at h1
      rw [List.getElem?_cons_succ] at h2
      have hrec1 : mkRow r emi P n d0 i b = rec1 := by simpa using h1
      subst hrec1
      split_ifs at h2 with hc
      · simp at h2
      · rw [scheduleAux_head_opening r emi P n d0 f (i + 1) _ rec2 h2]
        rfl
    | succ j =>
      rw [List.getElem?_cons_succ] at h1 h2
      split_ifs at h1 h2 with hc
      · simp at h1
      · exact ih (i + 1) _ j rec1 rec2 h1 h2

theorem scheduleAux_nonneg (r emi P : ℚ) (n : ℤ) (d0 : ℤ) :
    ∀ (f i : ℕ) (b : ℚ), 0 < b →
      ∀ rec ∈ scheduleAux r emi P n d0 f i b,
        0 ≤ rec.openingBalance ∧ 0 ≤ rec.interestComponent ∧ 0 ≤ rec.closingBalance := by
  intro f
  induction f with
  | zero => intro i b hb rec hrec; rw [scheduleAux_zero] at hrec; simp at hrec
  | succ f ih =>
    intro i b hb rec hrec
    rw [scheduleAux_succ] at hrec
    rcases List.mem_cons.mp hrec with hhead | htail
    · subst hhead
      refine ⟨roundTo2_nonneg hb.le, roundTo2_nonneg ?_, roundTo2_nonneg ?_⟩
      · unfold icOf
        split_ifs with hr
        · positivity
        · exact le_refl 0
      · exact closingOf_nonneg r emi P n b
    · split_ifs at htail with hc
      · simp at htail
      · exact ih (i + 1) _ (lt_of_not_le hc) rec htail

theorem scheduleAux_emi_nonlast (r emi P : ℚ) (n : ℤ) (d0 : ℤ) :
    ∀ (f i : ℕ) (b : ℚ) (j : ℕ) (rec1 rec2 : Row),
      (scheduleAux r emi P n d0 f i b)[j]? = some rec1 →
      (scheduleAux r emi P n d0 f i b)[j + 1]? = some rec2 →
        rec1.emi = roundTo2 emi := by
  intro f
  induction f with
  | zero => intro i b j rec1 rec2 h1 h2; rw [scheduleAux_zero] at h1; simp at h1
  | succ f ih =>
    intro i b j rec1 rec2 h1 h2
    rw [scheduleAux_succ] at h1 h2
    cases j with
    | zero =>
      rw [List.getElem?_cons_zero] at h1
      rw [List.getElem?_cons_succ] at h2
      have hrec1 : mkRow r emi P n d0 i b = rec1 := by simpa using h1
      subst hrec1
      split_ifs at h2 with hc
      · simp at h2
      · have hpos : 0 < closingOf r emi P n b := lt_of_not_le hc
        simp [mkRow, emiActualOf_of_closing_pos hpos]
    | succ j =>
      rw [List.getElem?_cons_succ] at h1 h2
      split_ifs at h1 h2 with hc
      · simp at h1
      · exact ih (i + 1) _ j rec1 rec2 h1 h2

theorem scheduleAux_record_round (r emi P : ℚ) (n : ℤ) (d0 : ℤ) :
    ∀ (f i : ℕ) (b : ℚ), ∀ rec ∈ scheduleAux r emi P n d0 f i b,
      ∃ ob pcv, rec.openingBalance = roundTo2 ob ∧
        rec.principalComponent = roundTo2 pcv ∧
        rec.closingBalance = roundTo2 (ob - pcv) := by
  intro f
  induction f with
  | zero => intro i b rec hrec; rw [scheduleAux_zero] at hrec; simp at hrec
  | succ f ih =>
    intro i b rec hrec
    rw [scheduleAux_succ] at hrec
    rcases List.mem_cons.mp hrec with hhead | htail
    · subst hhead
      exact ⟨b, pcOf r emi P n b, rfl, rfl, rfl⟩
    · split_ifs at htail with hc
      · simp at htail
      · exact ih (i + 1) _ rec htail

theorem scheduleAux_last_closing (r emi P : ℚ) (n : ℤ) (d0 : ℤ) :
    ∀ (f i : ℕ) (b : ℚ), (scheduleAux r emi P n d0 f i b).length < f →
      ∀ rec ∈ (scheduleAux r emi P n d0 f i b).getLast?, rec.closingBalance ≤ 0 := by
  intro f
  induction f with
  | zero => intro i b h; omega
  | succ f ih =>
    intro i b h rec hrec
    rw [scheduleAux_succ] at h hrec
    split_ifs at h hrec with hc
    · simp at hrec
      subst hrec
      exact roundTo2_nonpos hc
    · have hlen : (scheduleAux r emi P n d0 f (i + 1) (closingOf r emi P n b)).length < f := by
        simp only [List.length_cons] at h
        omega
      have hne : scheduleAux r emi P n d0 f (i + 1) (closingOf r emi P n b) ≠ [] :=
        scheduleAux_ne_nil r emi P n d0 f (i + 1) _ (by omega)
      rcases List.exists_cons_of_ne_nil hne with ⟨x, xs, hx⟩
      rw [hx, List.getLast?_cons_cons, ← hx] at hrec
      exact ih (i + 1) _ hlen rec hrec

/-! ### Exact characterization of a full run along a balance trajectory -/

/-- If `B` is the exact balance trajectory — it satisfies the loop's
recurrence, stays positive before period `N`, never triggers the clamp, and
reaches exactly `0` at period `N` — then the loop runs for exactly the
remaining periods and each row is determined by `B`. -/
theorem scheduleAux_char (r emi P : ℚ) (n : ℤ) (d0 : ℤ) (B : ℕ → ℚ) (N : ℕ)
    (hno : ∀ k, k < N → pc0Of r emi P n (B k) ≤ B k)
    (hrec : ∀ k, k < N → B (k + 1) = B k - pc0Of r emi P n (B k))
    (hpos : ∀ k, k < N → 0 < B k)
    (hend : B N = 0) :
    ∀ (f i : ℕ), i + f = N →
      scheduleAux r emi P n d0 f i (B i) =
        (List.range' i f).map (fun k =>
          { month := k + 1
            date := dateOfMonthIndex (d0 + k)
            openingBalance := roundTo2 (B k)
            emi := roundTo2 emi
            principalComponent := roundTo2 (pc0Of r emi P n (B k))
            interestComponent := roundTo2 (icOf r (B k))
            closingBalance := roundTo2 (B (k + 1)) }) := by
  intro f
  induction f with
  | zero => intro i hi; rw [scheduleAux_zero]; simp
  | succ f ih =>
    intro i hi
    have hiN : i < N := by omega
    have hclamp : ¬ B i < pc0Of r emi P n (B i) := not_lt.mpr (hno i hiN)
    have hpc : pcOf r emi P n (B i) = pc0Of r emi P n (B i) := by
      unfold pcOf
      rw [if_neg hclamp]
    have hclose : closingOf r emi P n (B i) = B (i + 1) := by
      unfold closingOf
      rw [hpc, ← hrec i hiN]
    have hemia : emiActualOf r emi P n (B i) = emi := by
      unfold emiActualOf
      rw [if_neg hclamp]
    rw [scheduleAux_succ, List.range'_succ, List.map_cons]
    have hhead : mkRow r emi P n d0 i (B i) =
        { month := i + 1
          date := dateOfMonthIndex (d0 + i)
          openingBalance := roundTo2 (B i)
          emi := roundTo2 emi
          principalComponent := roundTo2 (pc0Of r emi P n (B i))
          interestComponent := roundTo2 (icOf r (B i))
          closingBalance := roundTo2 (B (i + 1)) } := by
      unfold mkRow
      rw [hpc, hclose, hemia]
    rw [hhead, hclose]
    congr 1
    cases f with
    | zero =>
      have hiN1 : i + 1 = N := by omega
      rw [if_pos (by rw [hiN1, hend])]
      simp
    | succ f' =>
      have hlt : i + 1 < N := by omega
      rw [if_neg (not_le.mpr (hpos (i + 1) hlt))]
      exact ih (i + 1) (by omega)

/-! ### The linear (zero- or negative-rate) balance trajectory -/

/-- In the non-positive-rate branch the loop repays exactly
`principal / total_months` each period; this is the resulting balance. -/
def linBal (P : ℚ) (n : ℤ) (k : ℕ) : ℚ := P - (k : ℚ) * (P / (n : ℚ))

theorem linBal_zero (P : ℚ) (n : ℤ) : linBal P n 0 = P := by
  unfold linBal
  simp

theorem generate_schedule_linear (P rate : ℚ) (n : ℤ) (d : Date) (emi : ℚ)
    (hn : 0 < n) (hP : 0 < P) (hr : rate / 12 / 100 ≤ 0) :
    generate_schedule P rate n d emi =
      (List.range' 0 n.toNat).map (fun k =>
        { month := k + 1
          date := dateOfMonthIndex (alignMS d + k)
          openingBalance := roundTo2 (linBal P n k)
          emi := roundTo2 emi
          principalComponent := roundTo2 (P / (n : ℚ))
          interestComponent := roundTo2 0
          closingBalance := roundTo2 (linBal P n (k + 1)) }) := by
  set r := rate / 12 / 100 with hrdef
  have hnQ : (0 : ℚ) < (n : ℚ) := by exact_mod_cast hn
  have hNn : ((n.toNat : ℕ) : ℚ) = (n : ℚ) := by
    have h := Int.toNat_of_nonneg hn.le
    exact_mod_cast congrArg (fun z : ℤ => (z : ℚ)) h
  have hrneg : ¬ 0 < r := not_lt.mpr hr
  have hpc0 : ∀ b : ℚ, pc0Of r emi P n b = P / (n : ℚ) := by
    intro b
    unfold pc0Of
    rw [if_neg hrneg]
  have hic : ∀ b : ℚ, icOf r b = 0 := by
    intro b
    unfold icOf
    rw [if_neg hrneg]
  have hpos : ∀ k, k < n.toNat → 0 < linBal P n k := by
    intro k hk
    unfold linBal
    have hkn : (k : ℚ) < (n : ℚ) := by
      rw [← hNn]
      exact_mod_cast hk
    rw [sub_pos, div_eq_mul_inv, ← mul_assoc, mul_comm (k : ℚ) P, mul_assoc,
      ← div_eq_mul_inv]
    calc P * ((k : ℚ) / n) < P * 1 := by
          apply mul_lt_mul_of_pos_left _ hP
          rw [div_lt_one hnQ]
          exact hkn
      _ = P := mul_one P
  have hrecB : ∀ k, k < n.toNat → linBal P n (k + 1) = linBal P n k - pc0Of r emi P n (linBal P n k) := by
    intro k _
    rw [hpc0]
    unfold linBal
    push_cast
    ring
  have hno : ∀ k, k < n.toNat → pc0Of r emi P n (linBal P n k) ≤ linBal P n k := by
    intro k hk
    rw [hpc0]
    unfold linBal
    have hk1 : ((k : ℚ) + 1) ≤ (n : ℚ) := by
      rw [← hNn]
      exact_mod_cast Nat.succ_le_of_lt hk
    have key : P - (k : ℚ) * (P / (n : ℚ)) = ((n : ℚ) - (k : ℚ)) * (P / (n : ℚ)) := by
      field_simp
      ring
    rw [key]
    calc P / (n : ℚ) = 1 * (P / (n : ℚ)) := (one_mul _).symm
      _ ≤ ((n : ℚ) - (k : ℚ)) * (P / (n : ℚ)) :=
          mul_le_mul_of_nonneg_right (by linarith) (div_pos hP hnQ).le
  have hendB : linBal P n n.toNat = 0 := by
    unfold linBal
    rw [hNn]
    field_simp
  have hchar := scheduleAux_char r emi P n (alignMS d) (linBal P n) n.toNat
    hno hrecB hpos hendB n.toNat 0 (by omega)
  unfold generate_schedule
  rw [if_neg (by push_neg; exact ⟨by omega, by linarith⟩)]
  rw [linBal_zero] at hchar
  rw [hchar]
  apply List.map_congr_left
  intro k _
  rw [hpc0, hic]

/-! ### The geometric (positive-rate) balance trajectory -/

/-- Exact remaining balance after `k` periods of a loan of principal `P` at
monthly rate `r` over `N` periods paying the closed-form EMI:
`P * ((1+r)^N - (1+r)^k) / ((1+r)^N - 1)`. -/
def geoBal (P r : ℚ) (N k : ℕ) : ℚ :=
  P * ((1 + r) ^ N - (1 + r) ^ k) / ((1 + r) ^ N - 1)

theorem calculate_emi_pos_rate (P rate : ℚ) (n : ℤ) (hn : 0 < n)
    (hr : 0 < rate / 12 / 100) :
    calculate_emi P rate n =
      P * (rate / 12 / 100) * (1 + rate / 12 / 100) ^ n.toNat /
        ((1 + rate / 12 / 100) ^ n.toNat - 1) := by
  unfold calculate_emi
  rw [if_neg (by omega)]
  simp only
  rw [if_neg (by intro h; rw [h] at hr; exact lt_irrefl 0 hr)]

theorem generate_schedule_geometric (P rate : ℚ) (n : ℤ) (d : Date)
    (hn : 0 < n) (hP : 0 < P) (hr : 0 < rate / 12 / 100) :
    generate_schedule P rate n d (calculate_emi P rate n) =
      (List.range' 0 n.toNat).map (fun k =>
        { month := k + 1
          date := dateOfMonthIndex (alignMS d + k)
          openingBalance := roundTo2 (geoBal P (rate / 12 / 100) n.toNat k)
          emi := roundTo2 (calculate_emi P rate n)
          principalComponent := roundTo2 (geoBal P (rate / 12 / 100) n.toNat k -
            geoBal P (rate / 12 / 100) n.toNat (k + 1))
          interestComponent := roundTo2 (geoBal P (rate / 12 / 100) n.toNat k *
            (rate / 12 / 100))
          closingBalance := roundTo2 (geoBal P (rate / 12 / 100) n.toNat (k + 1)) }) := by
  set r := rate / 12 / 100 with hrdef
  set N := n.toNat with hNdef
  set B : ℕ → ℚ := geoBal P r N with hBdef
  have hx : 1 < 1 + r := by linarith
  have hx0 : (0 : ℚ) < 1 + r := by linarith
  have hN0 : 0 < N := by omega
  have hD : 0 < (1 + r) ^ N - 1 := by
    have h1 : (1 + r) ^ 0 < (1 + r) ^ N := pow_lt_pow_right₀ hx hN0
    rw [pow_zero] at h1
    linarith
  have hDne : (1 + r) ^ N - 1 ≠ 0 := ne_of_gt hD
  have hemi : calculate_emi P rate n = P * r * (1 + r) ^ N / ((1 + r) ^ N - 1) :=
    calculate_emi_pos_rate P rate n hn hr
  set emi := calculate_emi P rate n with hemidef
  have hpc0 : ∀ b : ℚ, pc0Of r emi P n b = emi - b * r := by
    intro b
    unfold pc0Of
    rw [if_pos hr]
  have hic : ∀ b : ℚ, icOf r b = b * r := by
    intro b
    unfold icOf
    rw [if_pos hr]
  have hB0 : B 0 = P := by
    rw [hBdef]
    unfold geoBal
    rw [pow_zero]
    field_simp
  have hnonneg : ∀ k, k ≤ N → 0 ≤ B k := by
    intro k hk
    rw [hBdef]
    unfold geoBal
    apply div_nonneg _ hD.le
    have : (1 + r) ^ k ≤ (1 + r) ^ N := pow_le_pow_right₀ hx.le hk
    nlinarith
  have hpos : ∀ k, k < N → 0 < B k := by
    intro k hk
    rw [hBdef]
    unfold geoBal
    apply div_pos _ hD
    have : (1 + r) ^ k < (1 + r) ^ N := pow_lt_pow_right₀ hx hk
    nlinarith
  have hend : B N = 0 := by
    rw [hBdef]
    unfold geoBal
    rw [sub_self, mul_zero, zero_div]
  have hrecB : ∀ k, k < N → B (k + 1) = B k - pc0Of r emi P n (B k) := by
    intro k _
    rw [hpc0, hemi, hBdef]
    unfold geoBal
    field_simp
    ring
  have hno : ∀ k, k < N → pc0Of r emi P n (B k) ≤ B k := by
    intro k hk
    have h1 := hrecB k hk
    have h2 := hnonneg (k + 1) (by omega)
    linarith
  have hchar := scheduleAux_char r emi P n (alignMS d) B N hno hrecB hpos hend N 0 (by omega)
  unfold generate_schedule
  rw [if_neg (by push_neg; exact ⟨by omega, by linarith⟩)]
  rw [hB0] at hchar
  rw [hchar]
  apply List.map_congr_left
  intro k hk
  have hkN : k < N := by
    have := List.mem_range'_1.mp hk
    omega
  rw [hpc0, hic]
  have hpceq : emi - B k * r = B k - B (k + 1) := by
    have := hrecB k hkN
    rw [hpc0] at this
    linarith
  rw [hpceq]

/-! ### Summation helpers -/

theorem sum_roundTo2_telescope (g : ℕ → ℚ) :
    ∀ (f i : ℕ),
      |(((List.range' i f).map (fun k => roundTo2 (g k - g (k + 1)))).sum -
        (g i - g (i + f)))| ≤ (f : ℚ) / 200 := by
  intro f
  induction f with
  | zero =>
    intro i
    simp
  | succ f ih =>
    intro i
    rw [List.range'_succ, List.map_cons, List.sum_cons]
    have h1 := abs_roundTo2_sub_le (g i - g (i + 1))
    have h2 := ih (i + 1)
    have hidx : i + (f + 1) = (i + 1) + f := by omega
    rw [hidx]
    have hsplit : roundTo2 (g i - g (i + 1)) +
        ((List.range' (i + 1) f).map (fun k => roundTo2 (g k - g (k + 1)))).sum -
        (g i - g ((i + 1) + f)) =
        (roundTo2 (g i - g (i + 1)) - (g i - g (i + 1))) +
        (((List.range' (i + 1) f).map (fun k => roundTo2 (g k - g (k + 1)))).sum -
          (g (i + 1) - g ((i + 1) + f))) := by
      ring
    rw [hsplit]
    calc |(roundTo2 (g i - g (i + 1)) - (g i - g (i + 1))) +
          (((List.range' (i + 1) f).map (fun k => roundTo2 (g k - g (k + 1)))).sum -
            (g (i + 1) - g ((i + 1) + f)))| ≤
        |roundTo2 (g i - g (i + 1)) - (g i - g (i + 1))| +
          |((List.range' (i + 1) f).map (fun k => roundTo2 (g k - g (k + 1)))).sum -
            (g (i + 1) - g ((i + 1) + f))| := abs_add _ _
      _ ≤ 1 / 200 + (f : ℚ) / 200 := add_le_add h1 h2
      _ = ((f : ℚ) + 1) / 200 := by ring
      _ = (((f + 1) : ℕ) : ℚ) / 200 := by push_cast; ring

theorem map_range'_getLast? {α : Type} (g : ℕ → α) (i f : ℕ) (hf : 0 < f) :
    ((List.range' i f).map g).getLast? = some (g (i + (f - 1))) := by
  obtain ⟨f', rfl⟩ : ∃ f', f = f' + 1 := ⟨f - 1, by omega⟩
  rw [List.range'_concat, List.map_append]
  rw [List.map_singleton, List.getLast?_concat]
  simp

theorem geoD_pos (r : ℚ) (N : ℕ) (hr : 0 < r) (hN : 0 < N) : 0 < (1 + r) ^ N - 1 := by
  have h1 : (1 + r) ^ 0 < (1 + r) ^ N := pow_lt_pow_right₀ (by linarith) hN
  rw [pow_zero] at h1
  linarith

theorem geoBal_zero (P r : ℚ) (N : ℕ) (hD : (1 + r) ^ N - 1 ≠ 0) :
    geoBal P r N 0 = P := by
  unfold geoBal
  rw [pow_zero]
  field_simp

theorem geoBal_top (P r : ℚ) (N : ℕ) : geoBal P r N N = 0 := by
  unfold geoBal
  rw [sub_self, mul_zero, zero_div]

/-! ### Claims -/

/-- Claim C7: degenerate inputs yield defined sentinel results rather than
errors: `calculate_emi` with a non-positive term returns 0, and
`generate_schedule` with a non-positive term or principal returns the empty
sequence. -/
theorem claim_C7 :
    (∀ (P rate : ℚ) (n : ℤ), n ≤ 0 → calculate_emi P rate n = 0) ∧
    (∀ (P rate : ℚ) (n : ℤ) (d : Date) (emi : ℚ), n ≤ 0 ∨ P ≤ 0 →
      generate_schedule P rate n d emi = []) := by
  constructor
  · intro P rate n hn
    unfold calculate_emi
    rw [if_pos hn]
  · intro P rate n d emi h
    unfold generate_schedule
    rw [if_pos h]

/-- Witness for C7 at term 0 and at principal −5. -/
theorem claim_C7_witness :
    calculate_emi 5 7 0 = 0 ∧ generate_schedule (-5) 7 12 ⟨2024, 1, 1⟩ 3 = [] :=
  ⟨claim_C7.1 5 7 0 (by norm_num), claim_C7.2 (-5) 7 12 ⟨2024, 1, 1⟩ 3 (Or.inr (by norm_num))⟩

/-- Counterexample to C3: for principal 500000, rate 8 % and 120 months the
code's value is about 6066.38, not within 0.01 of the spec's 6067.97. -/
theorem claim_C3_counterexample :
    ¬ |calculate_emi 500000 8 120 - 606797 / 100| ≤ 1 / 100 := by
  have h : calculate_emi 500000 8 120 < 606796 / 100 := by
    norm_num [calculate_emi, show (120 : ℤ).toNat = 120 from rfl]
  intro hle
  rw [abs_le] at hle
  linarith [hle.1]

/-- Claim C3 (amended): `calculate_emi 500000 8 120` is within 0.01 of
6066.38, and for a nonzero monthly rate the payment is the closed-form
amortization formula. -/
theorem claim_C3 :
    |calculate_emi 500000 8 120 - 606638 / 100| ≤ 1 / 100 ∧
    calculate_emi 500000 8 120 =
      500000 * (8 / 12 / 100) * (1 + 8 / 12 / 100) ^ (120 : ℤ).toNat /
        ((1 + 8 / 12 / 100) ^ (120 : ℤ).toNat - 1) := by
  constructor
  · rw [abs_le]
    constructor
    · norm_num [calculate_emi, show (120 : ℤ).toNat = 120 from rfl]
    · norm_num [calculate_emi, show (120 : ℤ).toNat = 120 from rfl]
  · exact calculate_emi_pos_rate 500000 8 120 (by norm_num) (by norm_num)

/-- Claim C9: record `j` (0-based) of any schedule is dated at the aligned
start month advanced by `j` months, with the day-of-month normalized to 1;
record 1 gets the month-start alignment of the start date itself. -/
theorem claim_C9 (P rate : ℚ) (n : ℤ) (d : Date) (emi : ℚ) (j : ℕ) (rec : Row)
    (h : (generate_schedule P rate n d emi)[j]? = some rec) :
    rec.date = dateOfMonthIndex (alignMS d + j) ∧ rec.date.day = 1 := by
  unfold generate_schedule at h
  split_ifs at h with hg
  · simp at h
  · have hmd := scheduleAux_month_date (rate / 12 / 100) emi P n (alignMS d)
      n.toNat 0 P j rec h
    constructor
    · rw [hmd.2]
      congr 2
      push_cast
      ring
    · rw [hmd.2]
      rfl

/-- Witness for C9: a one-record schedule starting 2024-01-15 dates its
record at the month start 2024-02-01. -/
theorem claim_C9_witness :
    ∃ rec : Row, (generate_schedule 1000 0 1 ⟨2024, 1, 15⟩ 77)[0]? = some rec ∧
      rec.date = dateOfMonthIndex (alignMS ⟨2024, 1, 15⟩ + (0 : ℕ)) ∧ rec.date.day = 1 := by
  have hlin := generate_schedule_linear 1000 0 1 ⟨2024, 1, 15⟩ 77
    (by norm_num) (by norm_num) (by norm_num)
  rcases ho : (generate_schedule 1000 0 1 ⟨2024, 1, 15⟩ 77)[0]? with _ | rec
  · rw [hlin] at ho
    simp [List.range'_one] at ho
  · exact ⟨rec, rfl, claim_C9 1000 0 1 ⟨2024, 1, 15⟩ 77 0 rec ho⟩

/-- Claim C8: every record that is followed by another record shows the
nominal payment amount (rounded to 2 decimals); only the last record's
payment can differ, so rounding error is never redistributed to earlier
periods. -/
theorem claim_C8 (P rate : ℚ) (n : ℤ) (d : Date) (emi : ℚ) (j : ℕ) (rec1 rec2 : Row)
    (h1 : (generate_schedule P rate n d emi)[j]? = some rec1)
    (h2 : (generate_schedule P rate n d emi)[j + 1]? = some rec2) :
    rec1.emi = roundTo2 emi := by
  unfold generate_schedule at h1 h2
  split_ifs at h1 h2 with hg
  · simp at h1
  · exact scheduleAux_emi_nonlast (rate / 12 / 100) emi P n (alignMS d)
      n.toNat 0 P j rec1 rec2 h1 h2

/-- Witness for C8: in a two-record schedule the first record's EMI field is
the rounded nominal payment. -/
theorem claim_C8_witness :
    ∃ rec1 rec2 : Row, (generate_schedule 1000 0 2 ⟨2024, 1, 1⟩ 500)[0]? = some rec1 ∧
      (generate_schedule 1000 0 2 ⟨2024, 1, 1⟩ 500)[1]? = some rec2 ∧
      rec1.emi = roundTo2 500 := by
  have hlin := generate_schedule_linear 1000 0 2 ⟨2024, 1, 1⟩ 500
    (by norm_num) (by norm_num) (by norm_num)
  rcases h0 : (generate_schedule 1000 0 2 ⟨2024, 1, 1⟩ 500)[0]? with _ | rec1
  · rw [hlin] at h0
    simp [show List.range' 0 2 = [0, 1] from rfl] at h0
  · rcases h1 : (generate_schedule 1000 0 2 ⟨2024, 1, 1⟩ 500)[1]? with _ | rec2
    · rw [hlin] at h1
      simp [show List.range' 0 2 = [0, 1] from rfl] at h1
    · exact ⟨rec1, rec2, rfl, rfl, claim_C8 1000 0 2 ⟨2024, 1, 1⟩ 500 0 rec1 rec2 h0 h1⟩

/-- Claim C6: in every schedule, each record's stored closing balance is the
2-decimal rounding of the exact `opening − principal` of its period (the
identity holds exactly on the unrounded values, each field being stored
rounded), hence recorded closing and recorded `opening − principal` agree to
within one cent; and the opening balance of record `i+1` equals the closing
balance of record `i` exactly. -/
theorem claim_C6 (P rate : ℚ) (n : ℤ) (d : Date) (emi : ℚ) :
    (∀ (j : ℕ) (rec1 rec2 : Row),
        (generate_schedule P rate n d emi)[j]? = some rec1 →
        (generate_schedule P rate n d emi)[j + 1]? = some rec2 →
          rec2.openingBalance = rec1.closingBalance) ∧
    (∀ rec ∈ generate_schedule P rate n d emi,
        ∃ ob pcv, rec.openingBalance = roundTo2 ob ∧
          rec.principalComponent = roundTo2 pcv ∧
          rec.closingBalance = roundTo2 (ob - pcv)) ∧
    (∀ rec ∈ generate_schedule P rate n d emi,
        |rec.closingBalance - (rec.openingBalance - rec.principalComponent)| ≤ 1 / 100) := by
  have hround : ∀ rec ∈ generate_schedule P rate n d emi,
      ∃ ob pcv, rec.openingBalance = roundTo2 ob ∧
        rec.principalComponent = roundTo2 pcv ∧
        rec.closingBalance = roundTo2 (ob - pcv) := by
    intro rec hrec
    unfold generate_schedule at hrec
    split_ifs at hrec with hg
    · simp at hrec
    · exact scheduleAux_record_round (rate / 12 / 100) emi P n (alignMS d)
        n.toNat 0 P rec hrec
  refine ⟨?_, hround, ?_⟩
  · intro j rec1 rec2 h1 h2
    unfold generate_schedule at h1 h2
    split_ifs at h1 h2 with hg
    · simp at h1
    · exact scheduleAux_chain (rate / 12 / 100) emi P n (alignMS d)
        n.toNat 0 P j rec1 rec2 h1 h2
  · intro rec hrec
    obtain ⟨ob, pcv, h1, h2, h3⟩ := hround rec hrec
    rw [h1, h2, h3]
    exact roundTo2_sub_bound ob pcv

/-- Witness for C6: consecutive records of a concrete two-record schedule
have matching closing/opening balances. -/
theorem claim_C6_witness :
    ∃ rec1 rec2 : Row, (generate_schedule 1000 0 2 ⟨2024, 1, 1⟩ 500)[0]? = some rec1 ∧
      (generate_schedule 1000 0 2 ⟨2024, 1, 1⟩ 500)[1]? = some rec2 ∧
      rec2.openingBalance = rec1.closingBalance := by
  have hlin := generate_schedule_linear 1000 0 2 ⟨2024, 1, 1⟩ 500
    (by norm_num) (by norm_num) (by norm_num)
  rcases h0 : (generate_schedule 1000 0 2 ⟨2024, 1, 1⟩ 500)[0]? with _ | rec1
  · rw [hlin] at h0
    simp [show List.range' 0 2 = [0, 1] from rfl] at h0
  · rcases h1 : (generate_schedule 1000 0 2 ⟨2024, 1, 1⟩ 500)[1]? with _ | rec2
    · rw [hlin] at h1
      simp [show List.range' 0 2 = [0, 1] from rfl] at h1
    · exact ⟨rec1, rec2, rfl, rfl,
        (claim_C6 1000 0 2 ⟨2024, 1, 1⟩ 500).1 0 rec1 rec2 h0 h1⟩

/-- Claim C5: for a positive term and principal and any payment, record `j`
(0-based) carries month number `j + 1` (so months start at 1, strictly
increasing, no gaps), the schedule has at most `termMonths` records, and it
is shorter only when the last produced record's balance reached `≤ 0`. -/
theorem claim_C5 (P rate : ℚ) (n : ℤ) (d : Date) (emi : ℚ) (hn : 0 < n) (hP : 0 < P) :
    (∀ (j : ℕ) (rec : Row), (generate_schedule P rate n d emi)[j]? = some rec →
        rec.month = j + 1) ∧
    (generate_schedule P rate n d emi).length ≤ n.toNat ∧
    ((generate_schedule P rate n d emi).length < n.toNat →
      ∀ rec ∈ (generate_schedule P rate n d emi).getLast?, rec.closingBalance ≤ 0) := by
  have hg : ¬ (n ≤ 0 ∨ P ≤ 0) := by
    rw [not_or]
    exact ⟨not_le.mpr hn, not_le.mpr hP⟩
  refine ⟨?_, ?_, ?_⟩
  · intro j rec h
    unfold generate_schedule at h
    rw [if_neg hg] at h
    have hm := (scheduleAux_month_date (rate / 12 / 100) emi P n (alignMS d)
      n.toNat 0 P j rec h).1
    omega
  · unfold generate_schedule
    rw [if_neg hg]
    exact scheduleAux_length_le (rate / 12 / 100) emi P n (alignMS d) n.toNat 0 P
  · unfold generate_schedule
    rw [if_neg hg]
    exact scheduleAux_last_closing (rate / 12 / 100) emi P n (alignMS d) n.toNat 0 P

/-- Witness for C5 at a concrete positive-term, positive-principal input. -/
theorem claim_C5_witness :
    (generate_schedule 100 12 5 ⟨2024, 1, 1⟩ 200).length ≤ (5 : ℤ).toNat :=
  (claim_C5 100 12 5 ⟨2024, 1, 1⟩ 200 (by norm_num) (by norm_num)).2.1

/-- Counterexample to C2: with payment 0 (any payment is allowed by the
claim), rate 12 % and one month, the only record has principal component
−1 < 0, so not all monetary fields are non-negative. -/
theorem claim_C2_counterexample :
    ∃ rec ∈ generate_schedule 100 12 1 ⟨2024, 1, 1⟩ 0, rec.principalComponent < 0 := by
  have hs : generate_schedule 100 12 1 ⟨2024, 1, 1⟩ 0 =
      [mkRow (12 / 12 / 100) 0 100 1 (alignMS ⟨2024, 1, 1⟩) 0 100] := by
    unfold generate_schedule
    rw [if_neg (by norm_num)]
    rw [show (1 : ℤ).toNat = 0 + 1 from rfl, scheduleAux_succ, scheduleAux_zero, ite_self]
  rw [hs]
  refine ⟨_, List.mem_singleton_self _, ?_⟩
  show roundTo2 (pcOf (12 / 12 / 100) 0 100 1 100) < 0
  norm_num [pcOf, pc0Of, roundTo2, rne]

/-- Claim C2 (amended): for a positive term and principal and any payment,
the recorded opening balance, interest component and closing balance are
non-negative — in particular the closing balance never goes negative, by the
clamp — but the principal component (and thus the recorded EMI) can be
negative when the payment is smaller than the period's interest. -/
theorem claim_C2 (P rate : ℚ) (n : ℤ) (d : Date) (emi : ℚ) (hn : 0 < n) (hP : 0 < P) :
    ∀ rec ∈ generate_schedule P rate n d emi,
      0 ≤ rec.openingBalance ∧ 0 ≤ rec.interestComponent ∧ 0 ≤ rec.closingBalance := by
  intro rec hrec
  unfold generate_schedule at hrec
  rw [if_neg (by rw [not_or]; exact ⟨not_le.mpr hn, not_le.mpr hP⟩)] at hrec
  exact scheduleAux_nonneg (rate / 12 / 100) emi P n (alignMS d) n.toNat 0 P hP rec hrec

/-- Witness for C2 on a concrete schedule record. -/
theorem claim_C2_witness :
    ∃ rec, rec ∈ generate_schedule 1000 0 1 ⟨2024, 1, 1⟩ 77 ∧
      0 ≤ rec.openingBalance ∧ 0 ≤ rec.interestComponent ∧ 0 ≤ rec.closingBalance := by
  cases hs : generate_schedule 1000 0 1 ⟨2024, 1, 1⟩ 77 with
  | nil =>
    have hlin := generate_schedule_linear 1000 0 1 ⟨2024, 1, 1⟩ 77
      (by norm_num) (by norm_num) (by norm_num)
    rw [hlin] at hs
    simp [List.range'_one] at hs
  | cons a l =>
    have hmem : a ∈ generate_schedule 1000 0 1 ⟨2024, 1, 1⟩ 77 := by
      rw [hs]
      exact List.mem_cons_self a l
    exact ⟨a, List.mem_cons_self a l, claim_C2 1000 0 1 ⟨2024, 1, 1⟩ 77 (by norm_num) (by norm_num) a hmem⟩

/-- Claim C4: at zero annual rate, `calculate_emi` returns exactly
`principal / termMonths`; every schedule record repays the 2-decimal
rounding of `principal / termMonths` with zero interest (no clamping occurs
at all in exact arithmetic); and the concrete scenario 120000 / 0 % / 12
yields payment 10000 and twelve records of principal 10000, interest 0. -/
theorem claim_C4 :
    (∀ (P : ℚ) (n : ℤ), 0 < n → calculate_emi P 0 n = P / n) ∧
    (∀ (P : ℚ) (n : ℤ) (d : Date) (emi : ℚ), ∀ rec ∈ generate_schedule P 0 n d emi,
        rec.principalComponent = roundTo2 (P / n) ∧ rec.interestComponent = 0) ∧
    calculate_emi 120000 0 12 = 10000 ∧
    (generate_schedule 120000 0 12 ⟨2024, 1, 1⟩ (calculate_emi 120000 0 12)).length = 12 ∧
    (∀ rec ∈ generate_schedule 120000 0 12 ⟨2024, 1, 1⟩ (calculate_emi 120000 0 12),
        rec.principalComponent = 10000 ∧ rec.interestComponent = 0) := by
  have hmemlin : ∀ (P : ℚ) (n : ℤ) (d : Date) (emi : ℚ), 0 < n → 0 < P →
      ∀ rec ∈ generate_schedule P 0 n d emi,
        rec.principalComponent = roundTo2 (P / n) ∧ rec.interestComponent = 0 := by
    intro P n d emi hn hP rec hrec
    rw [generate_schedule_linear P 0 n d emi hn hP (by norm_num)] at hrec
    obtain ⟨k, hk, hkrec⟩ := List.mem_map.mp hrec
    rw [← hkrec]
    exact ⟨rfl, roundTo2_zero⟩
  have hgen : ∀ (P : ℚ) (n : ℤ) (d : Date) (emi : ℚ), ∀ rec ∈ generate_schedule P 0 n d emi,
      rec.principalComponent = roundTo2 (P / n) ∧ rec.interestComponent = 0 := by
    intro P n d emi rec hrec
    by_cases hg : n ≤ 0 ∨ P ≤ 0
    · unfold generate_schedule at hrec
      rw [if_pos hg] at hrec
      simp at hrec
    · rw [not_or, not_le, not_le] at hg
      exact hmemlin P n d emi hg.1 hg.2 rec hrec
  refine ⟨?_, hgen, ?_, ?_, ?_⟩
  · intro P n hn
    unfold calculate_emi
    rw [if_neg (by omega)]
    simp only
    rw [if_pos (by norm_num)]
  · norm_num [calculate_emi]
  · rw [generate_schedule_linear 120000 0 12 ⟨2024, 1, 1⟩ (calculate_emi 120000 0 12)
      (by norm_num) (by norm_num) (by norm_num)]
    rw [List.length_map, List.length_range']
    rfl
  · intro rec hrec
    have h := hgen 120000 12 ⟨2024, 1, 1⟩ (calculate_emi 120000 0 12) rec hrec
    refine ⟨?_, h.2⟩
    rw [h.1]
    norm_num [roundTo2, rne]

/-- Witness for C4 at principal 7 over 3 months. -/
theorem claim_C4_witness : calculate_emi 7 0 3 = 7 / 3 :=
  claim_C4.1 7 3 (by norm_num)

/-- Claim C10 (implicit): for a negative annual rate the two functions use
different branch tests — `calculate_emi` (testing `monthlyRate == 0`)
evaluates the compound amortization formula, while `generate_schedule`
(testing `monthlyRate > 0`) takes the zero-interest branch with principal
component `principal / termMonths` and interest 0 — so the schedule does not
follow the payment computed by `calculate_emi`. -/
theorem claim_C10 :
    (∀ (P rate : ℚ) (n : ℤ) (d : Date) (emi : ℚ), 0 < n → rate < 0 →
        ∀ rec ∈ generate_schedule P rate n d emi,
          rec.interestComponent = 0 ∧ rec.principalComponent = roundTo2 (P / n)) ∧
    (∀ (P rate : ℚ) (n : ℤ), 0 < n → rate < 0 →
        calculate_emi P rate n =
          P * (rate / 12 / 100) * (1 + rate / 12 / 100) ^ n.toNat /
            ((1 + rate / 12 / 100) ^ n.toNat - 1)) ∧
    (∃ rec ∈ generate_schedule 1200 (-12) 2 ⟨2024, 1, 1⟩ (calculate_emi 1200 (-12) 2),
        rec.principalComponent ≠ calculate_emi 1200 (-12) 2 - rec.interestComponent) := by
  have hrneg : ∀ rate : ℚ, rate < 0 → rate / 12 / 100 < 0 := by
    intro rate hrate
    have h1 : rate / 12 < 0 := div_neg_of_neg_of_pos hrate (by norm_num)
    exact div_neg_of_neg_of_pos h1 (by norm_num)
  refine ⟨?_, ?_, ?_⟩
  · intro P rate n d emi hn hrate rec hrec
    by_cases hP : P ≤ 0
    · unfold generate_schedule at hrec
      rw [if_pos (Or.inr hP)] at hrec
      simp at hrec
    · rw [generate_schedule_linear P rate n d emi hn (not_le.mp hP)
        (hrneg rate hrate).le] at hrec
      obtain ⟨k, hk, hkrec⟩ := List.mem_map.mp hrec
      rw [← hkrec]
      exact ⟨roundTo2_zero, rfl⟩
  · intro P rate n hn hrate
    unfold calculate_emi
    rw [if_neg (by omega)]
    simp only
    rw [if_neg (ne_of_lt (hrneg rate hrate))]
  · have hlin := generate_schedule_linear 1200 (-12) 2 ⟨2024, 1, 1⟩
      (calculate_emi 1200 (-12) 2) (by norm_num) (by norm_num) (by norm_num)
    rw [hlin, show List.range' 0 (2 : ℤ).toNat = [0, 1] from rfl]
    refine ⟨_, List.mem_cons_self _ _, ?_⟩
    show roundTo2 (1200 / (2 : ℤ)) ≠ calculate_emi 1200 (-12) 2 - roundTo2 0
    rw [roundTo2_zero, sub_zero]
    rw [calculate_emi]
    norm_num [roundTo2, rne, show (2 : ℤ).toNat = 2 from rfl]

/-- Witness for C10 at the concrete negative-rate input. -/
theorem claim_C10_witness :
    calculate_emi 1200 (-12) 2 =
      1200 * ((-12 : ℚ) / 12 / 100) * (1 + (-12 : ℚ) / 12 / 100) ^ (2 : ℤ).toNat /
        ((1 + (-12 : ℚ) / 12 / 100) ^ (2 : ℤ).toNat - 1) :=
  claim_C10.2.1 1200 (-12) 2 (by norm_num) (by norm_num)

/-- Claim C1: with a positive term and monthly rate and the payment computed
by `calculate_emi`, the schedule fully amortizes: the recorded principal
components sum to the principal within one cent per record, and the last
record's closing balance is exactly 0 (so certainly within 0.01). -/
theorem claim_C1 (P rate : ℚ) (n : ℤ) (d : Date) (hn : 0 < n)
    (hr : 0 < rate / 12 / 100) (hP : 0 ≤ P) :
    |((generate_schedule P rate n d (calculate_emi P rate n)).map
        Row.principalComponent).sum - P| ≤ (n : ℚ) / 100 ∧
    ∀ rec ∈ (generate_schedule P rate n d (calculate_emi P rate n)).getLast?,
      rec.closingBalance = 0 := by
  have hnQ : (0 : ℚ) ≤ (n : ℚ) := by exact_mod_cast hn.le
  rcases eq_or_lt_of_le hP with hP0 | hPpos
  · unfold generate_schedule
    rw [if_pos (Or.inr (by linarith))]
    constructor
    · rw [← hP0]
      simp
      positivity
    · simp
  · set r := rate / 12 / 100 with hrdef
    set N := n.toNat with hNdef
    have hN0 : 0 < N := by omega
    have hNQ : ((N : ℕ) : ℚ) = (n : ℚ) := by
      have h := Int.toNat_of_nonneg hn.le
      exact_mod_cast congrArg (fun z : ℤ => (z : ℚ)) h
    have hD := geoD_pos r N hr hN0
    have hgeo := generate_schedule_geometric P rate n d hn hPpos hr
    set B : ℕ → ℚ := geoBal P r N with hB
    have hB0 : B 0 = P := by
      rw [hB]
      exact geoBal_zero P r N (ne_of_gt hD)
    have hBN : B N = 0 := by
      rw [hB]
      exact geoBal_top P r N
    rw [hgeo]
    constructor
    · rw [List.map_map]
      show |((List.range' 0 N).map (fun k => roundTo2 (B k - B (k + 1)))).sum - P| ≤
        (n : ℚ) / 100
      have htel := sum_roundTo2_telescope B N 0
      rw [Nat.zero_add, hB0, hBN, sub_zero] at htel
      rw [hNQ] at htel
      linarith
    · rw [map_range'_getLast? _ 0 N hN0]
      intro rec hrec
      simp only [Option.mem_def, Option.some.injEq] at hrec
      subst hrec
      show roundTo2 (B (0 + (N - 1) + 1)) = 0
      rw [show 0 + (N - 1) + 1 = N by omega, hBN, roundTo2_zero]

/-- Witness for C1 at principal 100, annual rate 1200 % (monthly rate 1),
one month. -/
theorem claim_C1_witness :
    |((generate_schedule 100 1200 1 ⟨2024, 1, 1⟩ (calculate_emi 100 1200 1)).map
        Row.principalComponent).sum - 100| ≤ ((1 : ℤ) : ℚ) / 100 ∧
    ∀ rec ∈ (generate_schedule 100 1200 1 ⟨2024, 1, 1⟩
        (calculate_emi 100 1200 1)).getLast?, rec.closingBalance = 0 :=
  claim_C1 100 1200 1 ⟨2024, 1, 1⟩ (by norm_num) (by norm_num) (by norm_num)

end Accr
